import Mathlib

/-!
Verification of the virtual-directory / single-writer layer of the sivafs
filesystem adapter (filesystem.go, v3 variant with the fileWriteModeOpen
flag).  The archive is embedded as an append-only list of headers; the
archive-store collaborator (go-siva index filtering, glob search, header
append) is modelled from the spec, and every facade operation is a pure
state-passing function translated from the source.
-/

set_option autoImplicit false

/-- Header models siva.Header restricted to the fields the adapter uses:
Name, Mode, ModTime and the FlagDeleted bit of Flags.  Time is a Nat tick. -/
structure Header where
  name : String
  mode : Nat
  modTime : Nat
  deleted : Bool
deriving Repr, DecidableEq

/-- SivaState models the mutable fields of the sivaFS struct together with
the archive content.  rwOpen stands for rw being non-nil (f is opened and
closed together with rw, so one flag covers both); log is the append-only
sequence of headers ever written through the session, in append order. -/
structure SivaState where
  rwOpen : Bool
  fileWriteModeOpen : Bool
  log : List Header
deriving Repr, DecidableEq

/-- Env fixes, for one run, the success or failure of each fallible
collaborator call: the backing-store open (covering both
underlying.OpenFile and siva.NewReaderWriter, which leave the state
unchanged on failure), rw.Index, rw.WriteHeader, rw.Get, rw.Flush,
rw.Close and f.Close. -/
structure Env where
  openOK : Bool
  indexOK : Bool
  writeHeaderOK : Bool
  getOK : Bool
  flushOK : Bool
  closeRWOK : Bool
  closeFOK : Bool
deriving Repr, DecidableEq

/-- envOK is the run in which every collaborator call succeeds. -/
def envOK : Env := ⟨true, true, true, true, true, true, true⟩

/-- ErrnoKind models the two syscall errnos the adapter puts in
os.PathError values. -/
inductive ErrnoKind where
  | enotdir
  | enotempty
deriving Repr, DecidableEq

/-- SivaError models the error values the adapter returns:
billy.ErrNotSupported, ErrFileWriteModeAlreadyOpen, os.ErrNotExist,
os.PathError with op, path and errno, and errors propagated verbatim
from the collaborators (underlying). -/
inductive SivaError where
  | notSupported
  | fileWriteModeAlreadyOpen
  | notExist
  | pathErr (op : String) (path : String) (errno : ErrnoKind)
  | underlying
deriving Repr, DecidableEq

/-- FInfo models the os.FileInfo values the adapter builds: newFileInfo
wraps an index entry, newDirFileInfo carries a directory path and a
modification time.  Modelled from the spec: fileinfo.go is not among the
sources; section 3 describes entry infos and synthetic directories by
exactly these fields. -/
inductive FInfo where
  | file (e : Header)
  | dir (path : String) (modTime : Nat)
deriving Repr, DecidableEq

/-- WFile models the write handle returned by createFile: the entry name
and the open flags captured by its close function. -/
structure WFile where
  name : String
  flag : Nat
deriving Repr, DecidableEq

/-- RFile models the read handle returned by openFile. -/
structure RFile where
  name : String
deriving Repr, DecidableEq

/-- OpenedFile is the billy.File result of OpenFile: either a write
handle or a read handle. -/
inductive OpenedFile where
  | w (f : WFile)
  | r (f : RFile)
deriving Repr, DecidableEq

/-! Go open-flag constants (os package, linux). O_RDONLY is zero, so the
test flag&O_RDONLY != 0 in the source is identically false. -/

def O_RDONLY : Nat := 0
def O_WRONLY : Nat := 1
def O_RDWR : Nat := 2
def O_CREATE : Nat := 64
def O_TRUNC : Nat := 512
def O_APPEND : Nat := 1024

/-- hasFlag models the Go test flag&bit != 0. -/
def hasFlag (flag bit : Nat) : Bool := Nat.land flag bit != 0

/-! Path machinery.  Go paths are slash-delimited strings; we implement
the pieces of path.Clean, path.Join and filepath.Dir that the adapter
relies on at the character-list level. -/

/-- splitSlash splits a character list at every slash; it always returns
at least one (possibly empty) group, like strings.Split(s, slash). -/
def splitSlash : List Char → List (List Char)
  | [] => [[]]
  | c :: cs =>
    if c = '/' then [] :: splitSlash cs
    else
      match splitSlash cs with
      | [] => [[c]]
      | g :: gs => (c :: g) :: gs

/-- joinSegs glues groups back together with slashes; it is the inverse
of splitSlash. -/
def joinSegs : List (List Char) → List Char
  | [] => []
  | [g] => g
  | g :: gs => g ++ '/' :: joinSegs gs

/-- cleanStepAbs is one step of path.Clean segment processing for a
rooted path: empty and dot segments vanish, dotdot pops the previous
segment and is dropped at the root. -/
def cleanStepAbs (acc : List (List Char)) (g : List Char) : List (List Char) :=
  if g = [] ∨ g = ['.'] then acc
  else if g = ['.', '.'] then acc.dropLast
  else acc ++ [g]

/-- cleanSegsAbs processes the segments of a rooted path the way
path.Clean does. -/
def cleanSegsAbs (segs : List (List Char)) : List (List Char) :=
  segs.foldl cleanStepAbs []

/-- cleanStepRel is one step of path.Clean segment processing for a
relative path: like the rooted case except that leading dotdot segments
are kept. -/
def cleanStepRel (acc : List (List Char)) (g : List Char) : List (List Char) :=
  if g = [] ∨ g = ['.'] then acc
  else if g = ['.', '.'] then
    match acc.getLast? with
    | some t => if t = ['.', '.'] then acc ++ [g] else acc.dropLast
    | none => acc ++ [g]
  else acc ++ [g]

/-- cleanSegsRel processes the segments of a relative path the way
path.Clean does. -/
def cleanSegsRel (segs : List (List Char)) : List (List Char) :=
  segs.foldl cleanStepRel []

/-- pathClean implements Go path.Clean for slash-delimited paths. -/
def pathClean (p : String) : String :=
  match p.data with
  | '/' :: _ => ⟨'/' :: joinSegs (cleanSegsAbs (splitSlash p.data))⟩
  | _ =>
    let segs := cleanSegsRel (splitSlash p.data)
    if segs = [] then "." else ⟨joinSegs segs⟩

/-- pathJoin2 implements Go path.Join for two elements: empty elements
are dropped and the result is cleaned. -/
def pathJoin2 (a b : String) : String :=
  if a = "" then (if b = "" then "" else pathClean b)
  else if b = "" then pathClean a
  else pathClean (a ++ "/" ++ b)

/-- removeLeadingSlash removes a leading slash of the path, if any
(source: removeLeadingSlash). -/
def removeLeadingSlash (p : String) : String :=
  match p.data with
  | '/' :: rest => ⟨rest⟩
  | _ => p

/-- normalizePath returns a path relative to the root: the source
computes filepath.Join of the root and the path and strips the leading
slash (source: normalizePath). -/
def normalizePath (p : String) : String :=
  removeLeadingSlash (if p = "" then pathClean "/" else pathClean ("/" ++ "/" ++ p))

/-- addTrailingSlash adds a trailing slash to the path if it does not
have one (source: addTrailingSlash; strings.HasSuffix of a slash holds
exactly when the last character is a slash). -/
def addTrailingSlash (p : String) : String :=
  if p = "" then p
  else if p.data.getLast? = some '/' then p else p ++ "/"

/-- parentDir implements filepath.Dir for the relative slash paths this
package stores: everything before the final slash, cleaned; dot when
the path has no slash. -/
def parentDir (n : String) : String :=
  match splitSlash n.data with
  | [] => "."
  | [_] => "."
  | g :: gs =>
    let segs := cleanSegsRel ((g :: gs).dropLast)
    if segs = [] then "." else ⟨joinSegs segs⟩

/-! Glob matching.  Modelled from the spec: the archive-store search is
shell-glob-style matching over full entry names (section 4.1), which is
Go path.Match: a star matches any run of non-separator characters, a
question mark one non-separator character, anything else itself.  The
adapter only ever builds patterns from caller paths plus star and
star-slash-star suffixes. -/

/-- starSuffixes lists the suffixes of the name reachable by letting a
star consume zero or more non-separator characters. -/
def starSuffixes : List Char → List (List Char)
  | [] => [[]]
  | c :: cs => (c :: cs) :: (if c = '/' then [] else starSuffixes cs)

def globMatch : List Char → List Char → Bool
  | [], n => n.isEmpty
  | p :: ps, n =>
    if p = '*' then (starSuffixes n).any (fun m => globMatch ps m)
    else
      match n with
      | [] => false
      | c :: cs =>
        if p = '?' then (if c = '/' then false else globMatch ps cs)
        else (p = c && globMatch ps cs)

/-- globMatchStr lifts globMatch to strings. -/
def globMatchStr (pat n : String) : Bool := globMatch pat.data n.data

/-! The filtered index.  Modelled from the spec: the index view resolves
each name to its most recent header by append order and removes
tombstoned names (sections 3 and 4.1).  The go-siva sort by name is not
modelled; no claim depends on listing order. -/

/-- filterIndex keeps, for every name, only the last header of the log,
and drops it when that header is a tombstone. -/
def filterIndex : List Header → List Header
  | [] => []
  | h :: t =>
    if t.any (fun h2 => h2.name == h.name) then filterIndex t
    else if h.deleted then filterIndex t
    else h :: filterIndex t

/-- indexFind models FilteredIndex.find: exact name lookup. -/
def indexFind (idx : List Header) (name : String) : Option Header :=
  idx.find? (fun e => e.name == name)

/-- globIndex models FilteredIndex.glob: all entries whose full name
matches the pattern. -/
def globIndex (idx : List Header) (pat : String) : List Header :=
  idx.filter (fun e => globMatchStr pat e.name)

/-- maxMod folds the maximum modTime over a list of entries starting
from the zero time, the way getDir accumulates oldDir. -/
def maxMod (entries : List Header) : Nat :=
  entries.foldl (fun a e => if a < e.modTime then e.modTime else a) 0

/-- updateMax implements the map update of listDirs: first write sets
the value, later writes only replace it with strictly larger times. -/
def updateMax : List (String × Nat) → String → Nat → List (String × Nat)
  | [], k, v => [(k, v)]
  | (k2, v2) :: rest, k, v =>
    if k2 = k then (k2, if v2 < v then v else v2) :: rest
    else (k2, v2) :: updateMax rest k v

/-! The directory synthesizer and the facade, translated from the
source. -/

/-- listFiles returns entry infos for all index entries matching the
pattern dir-slash-star (source: listFiles). -/
def listFiles (idx : List Header) (dir : String) : List FInfo :=
  let d := addTrailingSlash dir
  (globIndex idx (d ++ "*")).map FInfo.file

/-- getDir returns a synthetic directory info for dir when some entry
matches path.Join of dir and star, with the maximum modTime of the
matches; none otherwise (source: getDir). -/
def getDir (idx : List Header) (dir : String) : Option FInfo :=
  let d := addTrailingSlash dir
  let entries := globIndex idx (pathJoin2 d "*")
  if entries.isEmpty then none
  else some (FInfo.dir (pathClean d) (maxMod entries))

/-- listDirs groups the entries matching dir-slash-star-slash-star by
their filepath.Dir and returns one synthetic directory per group with
the largest modTime of the group (source: listDirs). -/
def listDirs (idx : List Header) (dir : String) : List FInfo :=
  let d := addTrailingSlash dir
  let entries := globIndex idx (d ++ "*/*")
  let table := entries.foldl (fun m e => updateMax m (parentDir e.name) e.modTime) []
  table.map (fun kv => FInfo.dir kv.1 kv.2)

namespace sivaFS

/-- ensureOpen opens the backing resource and the reader-writer only if
not already open (source: ensureOpen).  Both failure points leave the
state unchanged. -/
def ensureOpen (env : Env) (s : SivaState) : SivaState × Except SivaError Unit :=
  if s.rwOpen then (s, .ok ())
  else if env.openOK then ({ s with rwOpen := true }, .ok ())
  else (s, .error .underlying)

/-- ensureClosed flushes and releases the reader-writer and the backing
handle only if currently open (source: ensureClosed).  A failing
rw.Close leaves the session open; a failing f.Close happens after the
session is already marked closed. -/
def ensureClosed (env : Env) (s : SivaState) : SivaState × Except SivaError Unit :=
  if s.rwOpen then
    if env.closeRWOK then
      let s2 := { s with rwOpen := false }
      if env.closeFOK then (s2, .ok ()) else (s2, .error .underlying)
    else (s, .error .underlying)
  else (s, .ok ())

/-- Sync closes any open files (source: Sync). -/
def Sync (env : Env) (s : SivaState) : SivaState × Except SivaError Unit :=
  ensureClosed env s

/-- getIndex asks the reader-writer for the raw index and filters it
(source: getIndex). -/
def getIndex (env : Env) (s : SivaState) : Except SivaError (List Header) :=
  if env.indexOK then .ok (filterIndex s.log) else .error .underlying

/-- createFile rejects read-write and read-only create requests, appends
the new entry header, and hands out a write handle; the deferred
assignment marks the writer busy only after a successful header write
(source: createFile).  The flag test against O_RDONLY is identically
false because O_RDONLY is zero. -/
def createFile (env : Env) (now : Nat) (s : SivaState) (path : String)
    (flag mode : Nat) : SivaState × Except SivaError OpenedFile :=
  if hasFlag flag O_RDWR || hasFlag flag O_RDONLY then (s, .error .notSupported)
  else if env.writeHeaderOK then
    ({ s with fileWriteModeOpen := true,
              log := s.log ++ [⟨path, mode, now, false⟩] },
     .ok (.w ⟨path, flag⟩))
  else (s, .error .underlying)

/-- closeWFile is the close function captured by createFile, invoked by
the write handle (the handle-to-closeFunc plumbing is modelled from the
spec, section 4.4, file.go being absent): a no-op when the session is
gone, otherwise it clears the writer-busy flag for write-mode flags and
flushes the session (source: the closeFunc closure in createFile). -/
def closeWFile (env : Env) (s : SivaState) (f : WFile) : SivaState × Except SivaError Unit :=
  if s.rwOpen then
    let s2 :=
      if hasFlag f.flag O_WRONLY || hasFlag f.flag O_RDWR then
        { s with fileWriteModeOpen := false }
      else s
    if env.flushOK then (s2, .ok ()) else (s2, .error .underlying)
  else (s, .ok ())

/-- openFile rejects write-mode read requests, resolves the entry in the
filtered index and hands out a read handle bound to it (source:
openFile). -/
def openFile (env : Env) (s : SivaState) (path : String)
    (flag : Nat) : SivaState × Except SivaError OpenedFile :=
  if hasFlag flag O_RDWR || hasFlag flag O_WRONLY then (s, .error .notSupported)
  else
    match getIndex env s with
    | .error e => (s, .error e)
    | .ok idx =>
      match indexFind idx path with
      | none => (s, .error .notExist)
      | some _ => if env.getOK then (s, .ok (.r ⟨path⟩)) else (s, .error .underlying)

/-- OpenFile normalizes the path, rejects create-without-truncate,
ensures the session is open, rejects a create while the writer-busy
flag is set, and dispatches to createFile or openFile (source:
OpenFile). -/
def OpenFile (env : Env) (now : Nat) (s : SivaState) (p : String)
    (flag mode : Nat) : SivaState × Except SivaError OpenedFile :=
  let path := normalizePath p
  if hasFlag flag O_CREATE && !hasFlag flag O_TRUNC then (s, .error .notSupported)
  else
    match ensureOpen env s with
    | (s1, .error e) => (s1, .error e)
    | (s1, .ok _) =>
      if hasFlag flag O_CREATE then
        if s1.fileWriteModeOpen then (s1, .error .fileWriteModeAlreadyOpen)
        else createFile env now s1 path flag mode
      else openFile env s1 path flag

/-- Create opens with the write-only, create and truncate flags
(source: Create). -/
def Create (env : Env) (now : Nat) (s : SivaState) (p : String) :
    SivaState × Except SivaError OpenedFile :=
  OpenFile env now s p (Nat.lor (Nat.lor O_WRONLY O_CREATE) O_TRUNC) 438

/-- Stat normalizes the path, resolves an exact entry first and falls
back to directory synthesis, and reports absence when neither resolves
(source: Stat). -/
def Stat (env : Env) (s : SivaState) (p : String) : SivaState × Except SivaError FInfo :=
  let path := normalizePath p
  match ensureOpen env s with
  | (s1, .error e) => (s1, .error e)
  | (s1, .ok _) =>
    match getIndex env s1 with
    | .error e => (s1, .error e)
    | .ok idx =>
      match indexFind idx path with
      | some e => (s1, .ok (.file e))
      | none =>
        match getDir idx path with
        | some d => (s1, .ok d)
        | none => (s1, .error .notExist)

/-- ReadDir normalizes the path and returns the synthesized child
directories followed by the direct child files (source: ReadDir). -/
def ReadDir (env : Env) (s : SivaState) (p : String) :
    SivaState × Except SivaError (List FInfo) :=
  let path := normalizePath p
  match ensureOpen env s with
  | (s1, .error e) => (s1, .error e)
  | (s1, .ok _) =>
    match getIndex env s1 with
    | .error e => (s1, .error e)
    | .ok idx => (s1, .ok (listDirs idx path ++ listFiles idx path))

/-- MkdirAll looks the raw caller path up in the filtered index, with no
normalization, and fails with ENOTDIR exactly on an exact entry match
(source: MkdirAll). -/
def MkdirAll (env : Env) (s : SivaState) (filename : String) :
    SivaState × Except SivaError Unit :=
  match ensureOpen env s with
  | (s1, .error e) => (s1, .error e)
  | (s1, .ok _) =>
    match getIndex env s1 with
    | .error e => (s1, .error e)
    | .ok idx =>
      match indexFind idx filename with
      | some _ => (s1, .error (.pathErr "mkdir" filename .enotdir))
      | none => (s1, .ok ())

/-- Remove normalizes the path, appends a tombstone for an exact entry
match, fails with ENOTEMPTY when only a synthetic directory resolves,
and with not-found otherwise (source: Remove). -/
def Remove (env : Env) (now : Nat) (s : SivaState) (p : String) :
    SivaState × Except SivaError Unit :=
  let path := normalizePath p
  match ensureOpen env s with
  | (s1, .error e) => (s1, .error e)
  | (s1, .ok _) =>
    match getIndex env s1 with
    | .error e => (s1, .error e)
    | .ok idx =>
      match indexFind idx path with
      | some _ =>
        if env.writeHeaderOK then
          ({ s1 with log := s1.log ++ [⟨path, 0, now, true⟩] }, .ok ())
        else (s1, .error .underlying)
      | none =>
        match getDir idx path with
        | some _ => (s1, .error (.pathErr "remove" path .enotempty))
        | none => (s1, .error .notExist)

end sivaFS

/-! Specification-side predicates used to state the claims. -/

/-- noSlashL holds when a character list contains no slash. -/
def noSlashL (l : List Char) : Bool := l.all (fun c => decide (c ≠ '/'))

/-- noMetaL holds when a character list contains no glob metacharacter. -/
def noMetaL (l : List Char) : Bool :=
  l.all (fun c => decide (c ≠ '*') && decide (c ≠ '?'))

/-- noSlashStr holds when a string contains no slash. -/
def noSlashStr (u : String) : Bool := noSlashL u.data

/-- noMetaStr holds when a string contains no glob metacharacter. -/
def noMetaStr (u : String) : Bool := noMetaL u.data

/-- plainSeg holds for a path segment that is nonempty, is neither dot
nor dotdot, and contains no slash. -/
def plainSeg (g : List Char) : Bool :=
  decide (g ≠ []) && decide (g ≠ ['.']) && decide (g ≠ ['.', '.']) && noSlashL g

/-- isCleanPath holds for a nonempty relative slash path in normal form:
every slash-separated segment is plain. -/
def isCleanPath (d : String) : Bool :=
  decide (d.data ≠ []) && (splitSlash d.data).all plainSeg

/-- directChild d n says the name n lies exactly one level beneath the
directory d. -/
def directChild (d n : String) : Prop :=
  ∃ u : String, noSlashStr u = true ∧ n = d ++ "/" ++ u

/-- nestedTwo d k n says k is an immediate child directory of d and the
name n lies exactly one level beneath k. -/
def nestedTwo (d k n : String) : Prop :=
  ∃ u v : String, noSlashStr u = true ∧ noSlashStr v = true ∧
    k = d ++ "/" ++ u ∧ n = k ++ "/" ++ v

/-! General helper lemmas. -/

theorem strData_append (a b : String) : (a ++ b).data = a.data ++ b.data := by
  cases a; cases b; rfl

theorem hasFlag_rdonly (flag : Nat) : hasFlag flag O_RDONLY = false := by
  simp only [hasFlag, O_RDONLY]
  have h : Nat.land flag 0 = 0 := Nat.and_zero flag
  simp [h]

theorem filterIndex_subset {e : Header} : ∀ {l : List Header}, e ∈ filterIndex l → e ∈ l := by
  intro l
  induction l with
  | nil => simp [filterIndex]
  | cons h t ih =>
    intro hm
    simp only [filterIndex] at hm
    split at hm
    · exact List.mem_cons_of_mem _ (ih hm)
    · split at hm
      · exact List.mem_cons_of_mem _ (ih hm)
      · rcases List.mem_cons.1 hm with h1 | h1
        · exact h1 ▸ List.mem_cons_self _ _
        · exact List.mem_cons_of_mem _ (ih h1)

/-! Claim theorems. -/

/-- C9: ensureOpen is a no-op success on an already-open session,
ensureClosed is a no-op success on an already-closed session, and Sync
composed with Sync equals a single Sync on the session state. -/
theorem session_open_close_idempotent (env : Env) (s : SivaState) :
    (s.rwOpen = true → sivaFS.ensureOpen env s = (s, .ok ())) ∧
    (s.rwOpen = false → sivaFS.ensureClosed env s = (s, .ok ())) ∧
    (sivaFS.Sync env (sivaFS.Sync env s).1).1 = (sivaFS.Sync env s).1 := by
  refine ⟨?_, ?_, ?_⟩
  · intro h; simp [sivaFS.ensureOpen, h]
  · intro h; simp [sivaFS.ensureClosed, h]
  · cases hrw : s.rwOpen <;>
      cases hcr : env.closeRWOK <;>
      cases hcf : env.closeFOK <;>
      simp [sivaFS.Sync, sivaFS.ensureClosed, hrw, hcr, hcf]

/-- Witness for C9 at a concrete open state and a concrete closed state. -/
theorem session_open_close_idempotent_witness :
    sivaFS.ensureOpen envOK ⟨true, false, []⟩ = (⟨true, false, []⟩, .ok ()) ∧
    sivaFS.ensureClosed envOK ⟨false, false, []⟩ = (⟨false, false, []⟩, .ok ()) :=
  ⟨(session_open_close_idempotent envOK ⟨true, false, []⟩).1 rfl,
   (session_open_close_idempotent envOK ⟨false, false, []⟩).2.1 rfl⟩

/-- C10: when the header write fails during a create, OpenFile returns
the error with the state unchanged, so the writer-busy flag is still
clear and a later create with a working header write succeeds. -/
theorem createFile_header_failure_leaves_writer_free
    (env env2 : Env) (now now2 : Nat) (s : SivaState) (p q : String)
    (flag flag2 mode mode2 : Nat)
    (hopen : s.rwOpen = true) (hbusy : s.fileWriteModeOpen = false)
    (hc : hasFlag flag O_CREATE = true) (ht : hasFlag flag O_TRUNC = true)
    (hrw : hasFlag flag O_RDWR = false)
    (hwh : env.writeHeaderOK = false)
    (hc2 : hasFlag flag2 O_CREATE = true) (ht2 : hasFlag flag2 O_TRUNC = true)
    (hrw2 : hasFlag flag2 O_RDWR = false)
    (hwh2 : env2.writeHeaderOK = true) :
    sivaFS.OpenFile env now s p flag mode = (s, .error .underlying) ∧
    sivaFS.OpenFile env2 now2 s q flag2 mode2 =
      ({ s with fileWriteModeOpen := true,
                log := s.log ++ [⟨normalizePath q, mode2, now2, false⟩] },
       .ok (.w ⟨normalizePath q, flag2⟩)) := by
  constructor
  · simp [sivaFS.OpenFile, sivaFS.ensureOpen, sivaFS.createFile, hopen, hbusy,
      hc, ht, hrw, hwh, hasFlag_rdonly]
  · simp [sivaFS.OpenFile, sivaFS.ensureOpen, sivaFS.createFile, hopen, hbusy,
      hc2, ht2, hrw2, hwh2, hasFlag_rdonly]

/-- Witness for C10 at a concrete state and flags. -/
theorem createFile_header_failure_leaves_writer_free_witness :
    sivaFS.OpenFile ⟨true, true, false, true, true, true, true⟩ 1 ⟨true, false, []⟩ "a" 577 438 =
      (⟨true, false, []⟩, .error .underlying) ∧
    sivaFS.OpenFile envOK 2 ⟨true, false, []⟩ "b" 577 438 =
      (⟨true, true, [⟨"b", 438, 2, false⟩]⟩, .ok (.w ⟨"b", 577⟩)) := by
  have h := createFile_header_failure_leaves_writer_free
    ⟨true, true, false, true, true, true, true⟩ envOK 1 2 ⟨true, false, []⟩ "a" "b"
    577 577 438 438 rfl rfl (by decide) (by decide) (by decide) rfl
    (by decide) (by decide) (by decide) rfl
  exact ⟨h.1, by simpa using h.2⟩

/-- C1: on an open filesystem with the writer-busy flag set, any OpenFile
with the create flag (and truncate, which the flag gate requires) fails
with the write-already-in-progress error and changes nothing; closing the
outstanding write handle clears the flag, after which a create succeeds
and appends the new header. -/
theorem writerBusy_create_rejected_then_close_allows
    (env : Env) (now2 : Nat) (now : Nat) (s : SivaState) (p q : String)
    (flag mode flag2 mode2 : Nat) (f : WFile)
    (hopen : s.rwOpen = true) (hbusy : s.fileWriteModeOpen = true)
    (hc : hasFlag flag O_CREATE = true) (ht : hasFlag flag O_TRUNC = true)
    (hwf : hasFlag f.flag O_WRONLY = true)
    (hflush : env.flushOK = true)
    (hc2 : hasFlag flag2 O_CREATE = true) (ht2 : hasFlag flag2 O_TRUNC = true)
    (hrw2 : hasFlag flag2 O_RDWR = false)
    (hwh : env.writeHeaderOK = true) :
    sivaFS.OpenFile env now s p flag mode = (s, .error .fileWriteModeAlreadyOpen) ∧
    sivaFS.closeWFile env s f = ({ s with fileWriteModeOpen := false }, .ok ()) ∧
    sivaFS.OpenFile env now2 { s with fileWriteModeOpen := false } q flag2 mode2 =
      ({ s with fileWriteModeOpen := true,
                log := s.log ++ [⟨normalizePath q, mode2, now2, false⟩] },
       .ok (.w ⟨normalizePath q, flag2⟩)) := by
  refine ⟨?_, ?_, ?_⟩
  · simp [sivaFS.OpenFile, sivaFS.ensureOpen, hopen, hbusy, hc, ht]
  · simp [sivaFS.closeWFile, hopen, hwf, hflush]
  · simp [sivaFS.OpenFile, sivaFS.ensureOpen, sivaFS.createFile, hopen,
      hc2, ht2, hrw2, hwh, hasFlag_rdonly]

/-- Witness for C1 at a concrete busy state. -/
theorem writerBusy_create_rejected_then_close_allows_witness :
    sivaFS.OpenFile envOK 1 ⟨true, true, [⟨"x", 438, 0, false⟩]⟩ "y" 577 438 =
      (⟨true, true, [⟨"x", 438, 0, false⟩]⟩, .error .fileWriteModeAlreadyOpen) ∧
    sivaFS.closeWFile envOK ⟨true, true, [⟨"x", 438, 0, false⟩]⟩ ⟨"x", 577⟩ =
      (⟨true, false, [⟨"x", 438, 0, false⟩]⟩, .ok ()) ∧
    sivaFS.OpenFile envOK 2 ⟨true, false, [⟨"x", 438, 0, false⟩]⟩ "y" 577 438 =
      (⟨true, true, [⟨"x", 438, 0, false⟩, ⟨"y", 438, 2, false⟩]⟩, .ok (.w ⟨"y", 577⟩)) := by
  have h := writerBusy_create_rejected_then_close_allows envOK 2 1
    ⟨true, true, [⟨"x", 438, 0, false⟩]⟩ "y" "y" 577 438 577 438 ⟨"x", 577⟩
    rfl rfl (by decide) (by decide) (by decide) rfl (by decide) (by decide) (by decide) rfl
  exact ⟨h.1, by simpa using h.2.1, by simpa using h.2.2⟩

/-- C2 counterexample: with a non-deleted entry a/b nested strictly below
a, creating a succeeds (the source performs no conflict check), and with
an entry a exactly at a directory level of a/b, creating a/b succeeds as
well, contradicting the claim that creation fails in both directions. -/
theorem create_ignores_nested_entries_cex :
    filterIndex [⟨"a/b", 438, 1, false⟩] = [⟨"a/b", 438, 1, false⟩] ∧
    "a/b" = "a" ++ "/" ++ "b" ∧ noSlashStr "b" = true ∧
    sivaFS.OpenFile envOK 2 ⟨true, false, [⟨"a/b", 438, 1, false⟩]⟩ "a" 577 438 =
      (⟨true, true, [⟨"a/b", 438, 1, false⟩, ⟨"a", 438, 2, false⟩]⟩, .ok (.w ⟨"a", 577⟩)) ∧
    sivaFS.OpenFile envOK 2 ⟨true, false, [⟨"a", 438, 1, false⟩]⟩ "a/b" 577 438 =
      (⟨true, true, [⟨"a", 438, 1, false⟩, ⟨"a/b", 438, 2, false⟩]⟩, .ok (.w ⟨"a/b", 577⟩)) :=
  ⟨rfl, rfl, rfl, rfl, rfl⟩

/-- C2 amended: creation never consults the index: on an open,
writer-free session, a create with the standard flags succeeds and
appends the header for the normalized path whatever entries exist, so
file and synthetic-directory coexistence is not prevented at creation
time. -/
theorem create_appends_unconditionally
    (env : Env) (now : Nat) (s : SivaState) (p : String) (flag mode : Nat)
    (hopen : s.rwOpen = true) (hbusy : s.fileWriteModeOpen = false)
    (hc : hasFlag flag O_CREATE = true) (ht : hasFlag flag O_TRUNC = true)
    (hrw : hasFlag flag O_RDWR = false)
    (hwh : env.writeHeaderOK = true) :
    sivaFS.OpenFile env now s p flag mode =
      ({ s with fileWriteModeOpen := true,
                log := s.log ++ [⟨normalizePath p, mode, now, false⟩] },
       .ok (.w ⟨normalizePath p, flag⟩)) := by
  simp [sivaFS.OpenFile, sivaFS.ensureOpen, sivaFS.createFile, hopen, hbusy,
    hc, ht, hrw, hwh, hasFlag_rdonly]

/-- Witness for the amended C2 on a log already holding a nested entry. -/
theorem create_appends_unconditionally_witness :
    sivaFS.OpenFile envOK 2 ⟨true, false, [⟨"a/b", 438, 1, false⟩]⟩ "a" 577 438 =
      (⟨true, true, [⟨"a/b", 438, 1, false⟩, ⟨"a", 438, 2, false⟩]⟩, .ok (.w ⟨"a", 577⟩)) := by
  have h := create_appends_unconditionally envOK 2 ⟨true, false, [⟨"a/b", 438, 1, false⟩]⟩
    "a" 577 438 rfl rfl (by decide) (by decide) (by decide) rfl
  simpa using h

/-- C3 counterexample: the only entry a/b/c is strictly nested beneath a,
yet Stat of a reports absence, because directory synthesis only matches
entries exactly one level beneath the path. -/
theorem stat_deep_nesting_not_found_cex :
    "a/b/c" = "a" ++ "/" ++ "b/c" ∧
    filterIndex [⟨"a/b/c", 438, 7, false⟩] = [⟨"a/b/c", 438, 7, false⟩] ∧
    sivaFS.Stat envOK ⟨true, false, [⟨"a/b/c", 438, 7, false⟩]⟩ "a" =
      (⟨true, false, [⟨"a/b/c", 438, 7, false⟩]⟩, .error .notExist) :=
  ⟨rfl, rfl, rfl⟩

/-- C4 counterexample: with the single entry a/b/c nested beneath a (so
the spec calls a a synthetic directory), Remove of a fails with the
not-found error rather than the directory-not-empty error, because the
directory probe only sees entries exactly one level down. -/
theorem remove_deep_nesting_not_found_cex :
    "a/b/c" = "a" ++ "/" ++ "b/c" ∧
    filterIndex [⟨"a/b/c", 438, 3, false⟩] = [⟨"a/b/c", 438, 3, false⟩] ∧
    sivaFS.Remove envOK 9 ⟨true, false, [⟨"a/b/c", 438, 3, false⟩]⟩ "a" =
      (⟨true, false, [⟨"a/b/c", 438, 3, false⟩]⟩, .error .notExist) :=
  ⟨rfl, rfl, rfl⟩

/-- C6 counterexample: a write-only create request carrying O_APPEND is
accepted, contradicting the claim that every append request is rejected
as unsupported. -/
theorem openFile_append_accepted_cex :
    hasFlag 1601 O_APPEND = true ∧
    sivaFS.OpenFile envOK 1 ⟨true, false, []⟩ "x" 1601 438 =
      (⟨true, true, [⟨"x", 438, 1, false⟩]⟩, .ok (.w ⟨"x", 1601⟩)) :=
  ⟨rfl, rfl⟩

/-- C7 counterexample: with the single entry a/b/c/d, ReadDir of a is
empty: the child-directory scan only matches entries exactly two levels
beneath a, so the synthetic directory a/b the claim expects is absent. -/
theorem readDir_depth_three_invisible_cex :
    "a/b/c/d" = "a" ++ "/" ++ "b" ++ "/" ++ "c/d" ∧
    sivaFS.ReadDir envOK ⟨true, false, [⟨"a/b/c/d", 438, 5, false⟩]⟩ "a" =
      (⟨true, false, [⟨"a/b/c/d", 438, 5, false⟩]⟩, .ok []) :=
  ⟨rfl, rfl⟩

/-! Lemmas about splitSlash and joinSegs. -/

theorem strExt (a b : String) (h : a.data = b.data) : a = b := by
  cases a; cases b; exact congrArg String.mk h

theorem strMk_data (s : String) : String.mk s.data = s := by
  cases s; rfl

theorem splitSlash_ne_nil : ∀ cs : List Char, splitSlash cs ≠ [] := by
  intro cs
  cases cs with
  | nil => simp [splitSlash]
  | cons c cs =>
    by_cases h : c = '/'
    · simp [splitSlash, h]
    · cases hs : splitSlash cs <;> simp [splitSlash, h, hs]

theorem splitSlash_cons_slash (cs : List Char) :
    splitSlash ('/' :: cs) = [] :: splitSlash cs := by
  simp [splitSlash]

theorem splitSlash_cons_ne {c : Char} (hc : c ≠ '/') (cs : List Char) {g : List Char}
    {gs : List (List Char)} (hs : splitSlash cs = g :: gs) :
    splitSlash (c :: cs) = (c :: g) :: gs := by
  simp [splitSlash, hc, hs]

theorem noSlash_mem_splitSlash :
    ∀ (cs : List Char) (g : List Char), g ∈ splitSlash cs → noSlashL g = true := by
  intro cs
  induction cs with
  | nil =>
    intro g hg
    simp [splitSlash] at hg
    subst hg; rfl
  | cons c cs ih =>
    intro g hg
    by_cases h : c = '/'
    · simp [splitSlash, h] at hg
      rcases hg with hg | hg
      · subst hg; rfl
      · exact ih g hg
    · rcases hs : splitSlash cs with _ | ⟨g1, gs⟩
      · exact absurd hs (splitSlash_ne_nil cs)
      · simp [splitSlash, h, hs] at hg
        rcases hg with hg | hg
        · subst hg
          have h1 : g1 ∈ splitSlash cs := by rw [hs]; exact List.mem_cons_self _ _
          have h2 := ih g1 h1
          simp [noSlashL] at h2 ⊢
          exact ⟨h, h2⟩
        · exact ih g (by rw [hs]; exact List.mem_cons_of_mem _ hg)

theorem splitSlash_noSlash : ∀ a : List Char, noSlashL a = true → splitSlash a = [a] := by
  intro a
  induction a with
  | nil => intro _; rfl
  | cons c a ih =>
    intro h
    simp [noSlashL] at h
    obtain ⟨hc, ha⟩ := h
    simp [splitSlash, hc, ih (by simpa [noSlashL] using ha)]

theorem splitSlash_append_slash :
    ∀ (a : List Char), noSlashL a = true →
      ∀ b : List Char, splitSlash (a ++ '/' :: b) = a :: splitSlash b := by
  intro a
  induction a with
  | nil => intro _ b; simp [splitSlash]
  | cons c a ih =>
    intro h b
    simp [noSlashL] at h
    obtain ⟨hc, ha⟩ := h
    simp [splitSlash, hc, ih (by simpa [noSlashL] using ha) b]

theorem joinSegs_cons_cons (g g2 : List Char) (gs : List (List Char)) :
    joinSegs (g :: g2 :: gs) = g ++ '/' :: joinSegs (g2 :: gs) := rfl

theorem joinSegs_splitSlash : ∀ cs : List Char, joinSegs (splitSlash cs) = cs := by
  intro cs
  induction cs with
  | nil => rfl
  | cons c cs ih =>
    rcases hs : splitSlash cs with _ | ⟨g, gs⟩
    · exact absurd hs (splitSlash_ne_nil cs)
    · rw [hs] at ih
      by_cases h : c = '/'
      · subst h
        rw [show splitSlash ('/' :: cs) = [] :: splitSlash cs from by simp [splitSlash]]
        rw [hs, joinSegs_cons_cons, ih]
        rfl
      · simp only [splitSlash, if_neg h, hs]
        rcases gs with _ | ⟨g2, gs⟩
        · simpa [joinSegs] using congrArg (c :: ·) ih
        · rw [joinSegs_cons_cons] at ih ⊢
          simpa using congrArg (c :: ·) ih

theorem splitSlash_joinSegs :
    ∀ segs : List (List Char), segs ≠ [] → (∀ g ∈ segs, noSlashL g = true) →
      splitSlash (joinSegs segs) = segs := by
  intro segs
  induction segs with
  | nil => intro h; exact absurd rfl h
  | cons g gs ih =>
    intro _ hall
    rcases gs with _ | ⟨g2, gs⟩
    · simpa [joinSegs] using splitSlash_noSlash g (hall g (by simp))
    · rw [joinSegs_cons_cons, splitSlash_append_slash g (hall g (by simp))]
      rw [ih (by simp) (fun x hx => hall x (List.mem_cons_of_mem _ hx))]

theorem joinSegs_append_single :
    ∀ (segs : List (List Char)) (g : List Char), segs ≠ [] →
      joinSegs (segs ++ [g]) = joinSegs segs ++ '/' :: g := by
  intro segs
  induction segs with
  | nil => intro g h; exact absurd rfl h
  | cons a gs ih =>
    intro g _
    rcases gs with _ | ⟨g2, gs⟩
    · rfl
    · have h1 : (a :: g2 :: gs) ++ [g] = a :: (g2 :: (gs ++ [g])) := by simp
      rw [h1, joinSegs_cons_cons, show g2 :: (gs ++ [g]) = (g2 :: gs) ++ [g] from rfl,
        ih g (by simp), joinSegs_cons_cons]
      simp

theorem splitSlash_joinSegs_append :
    ∀ segs : List (List Char), segs ≠ [] → (∀ g ∈ segs, noSlashL g = true) →
      ∀ rest, splitSlash (joinSegs segs ++ '/' :: rest) = segs ++ splitSlash rest := by
  intro segs
  induction segs with
  | nil => intro h; exact absurd rfl h
  | cons g gs ih =>
    intro _ hall rest
    rcases gs with _ | ⟨g2, gs⟩
    · simpa [joinSegs] using splitSlash_append_slash g (hall g (by simp)) rest
    · rw [joinSegs_cons_cons, List.append_assoc, List.cons_append,
        splitSlash_append_slash g (hall g (by simp)),
        ih (by simp) (fun x hx => hall x (List.mem_cons_of_mem _ hx)) rest]
      simp

/-! Lemmas about segment cleaning and clean paths. -/

theorem plainSeg_parts {g : List Char} (h : plainSeg g = true) :
    g ≠ [] ∧ g ≠ ['.'] ∧ g ≠ ['.', '.'] ∧ noSlashL g = true := by
  simp only [plainSeg, Bool.and_eq_true, decide_eq_true_eq] at h
  exact ⟨h.1.1.1, h.1.1.2, h.1.2, h.2⟩

theorem plainSeg_noSlash {g : List Char} (h : plainSeg g = true) : noSlashL g = true :=
  (plainSeg_parts h).2.2.2

theorem cleanStepRel_plain (acc : List (List Char)) {g : List Char}
    (h : plainSeg g = true) : cleanStepRel acc g = acc ++ [g] := by
  obtain ⟨h1, h2, h3, _⟩ := plainSeg_parts h
  simp [cleanStepRel, h1, h2, h3]

theorem cleanStepRel_nilseg (acc : List (List Char)) : cleanStepRel acc [] = acc := by
  simp [cleanStepRel]

theorem cleanStepAbs_plain (acc : List (List Char)) {g : List Char}
    (h : plainSeg g = true) : cleanStepAbs acc g = acc ++ [g] := by
  obtain ⟨h1, h2, h3, _⟩ := plainSeg_parts h
  simp [cleanStepAbs, h1, h2, h3]

theorem cleanStepAbs_nilseg (acc : List (List Char)) : cleanStepAbs acc [] = acc := by
  simp [cleanStepAbs]

theorem foldl_cleanStepRel_plain :
    ∀ segs : List (List Char), (∀ g ∈ segs, plainSeg g = true) →
      ∀ acc, segs.foldl cleanStepRel acc = acc ++ segs := by
  intro segs
  induction segs with
  | nil => intro _ acc; simp
  | cons g gs ih =>
    intro hall acc
    rw [List.foldl_cons, cleanStepRel_plain acc (hall g (by simp)),
      ih (fun x hx => hall x (List.mem_cons_of_mem _ hx))]
    simp

theorem foldl_cleanStepAbs_plain :
    ∀ segs : List (List Char), (∀ g ∈ segs, plainSeg g = true) →
      ∀ acc, segs.foldl cleanStepAbs acc = acc ++ segs := by
  intro segs
  induction segs with
  | nil => intro _ acc; simp
  | cons g gs ih =>
    intro hall acc
    rw [List.foldl_cons, cleanStepAbs_plain acc (hall g (by simp)),
      ih (fun x hx => hall x (List.mem_cons_of_mem _ hx))]
    simp

theorem isCleanPath_data_ne {d : String} (h : isCleanPath d = true) : d.data ≠ [] := by
  simp [isCleanPath] at h
  exact h.1

theorem isCleanPath_segs {d : String} (h : isCleanPath d = true) :
    ∀ g ∈ splitSlash d.data, plainSeg g = true := by
  simp [isCleanPath, List.all_eq_true] at h
  exact h.2

theorem ne_empty_of_clean {d : String} (h : isCleanPath d = true) : d ≠ "" := by
  intro he
  exact isCleanPath_data_ne h (by rw [he])

theorem clean_head_not_slash {d : String} (h : isCleanPath d = true) :
    ∀ rest, d.data ≠ '/' :: rest := by
  intro rest heq
  have h1 : splitSlash d.data = [] :: splitSlash rest := by rw [heq]; simp [splitSlash]
  have h2 := isCleanPath_segs h [] (by rw [h1]; exact List.mem_cons_self _ _)
  simp [plainSeg] at h2

theorem splitSlash_getLast :
    ∀ cs : List Char, cs.getLast? = some '/' → (splitSlash cs).getLast? = some [] := by
  intro cs
  induction cs with
  | nil => intro h; simp at h
  | cons c cs ih =>
    intro h
    rcases cs with _ | ⟨c2, cs'⟩
    · simp at h
      simp [splitSlash, h]
    · have h2 : (c2 :: cs').getLast? = some '/' := by
        rwa [List.getLast?_cons_cons] at h
      have h3 := ih h2
      by_cases hc : c = '/'
      · rcases hs : splitSlash (c2 :: cs') with _ | ⟨g, gs⟩
        · exact absurd hs (splitSlash_ne_nil _)
        · rw [hs] at h3
          rw [hc, splitSlash_cons_slash, hs, List.getLast?_cons_cons]
          exact h3
      · rcases hs : splitSlash (c2 :: cs') with _ | ⟨g, gs⟩
        · exact absurd hs (splitSlash_ne_nil _)
        · rw [hs] at h3
          rw [splitSlash_cons_ne hc _ hs]
          rcases gs with _ | ⟨g2, gs'⟩
          · simp at h3
            have h4 := joinSegs_splitSlash (c2 :: cs')
            rw [hs, h3] at h4
            simp [joinSegs] at h4
          · rw [List.getLast?_cons_cons] at h3 ⊢
            exact h3

theorem clean_getLast_not_slash {d : String} (h : isCleanPath d = true) :
    d.data.getLast? ≠ some '/' := by
  intro hl
  have h1 := splitSlash_getLast d.data hl
  have h2 : ([] : List Char) ∈ splitSlash d.data := by
    obtain ⟨hne, heq⟩ := List.mem_getLast?_eq_getLast (l := splitSlash d.data)
      (x := ([] : List Char)) (by rw [Option.mem_def, h1])
    rw [heq]
    exact List.getLast_mem hne
  have h3 := isCleanPath_segs h [] h2
  simp [plainSeg] at h3

theorem addTrailingSlash_clean {d : String} (h : isCleanPath d = true) :
    addTrailingSlash d = d ++ "/" := by
  simp [addTrailingSlash, ne_empty_of_clean h, clean_getLast_not_slash h]

/-! Evaluation lemmas for pathClean, pathJoin2 and normalizePath on
clean paths. -/

theorem pathClean_not_slash {p : String} (h : ∀ rest, p.data ≠ '/' :: rest) :
    pathClean p =
      (if cleanSegsRel (splitSlash p.data) = [] then "."
       else ⟨joinSegs (cleanSegsRel (splitSlash p.data))⟩) := by
  unfold pathClean
  split
  · next x heq => exact absurd heq (h x)
  · rfl

theorem pathClean_slash {p : String} {rest : List Char} (h : p.data = '/' :: rest) :
    pathClean p = ⟨'/' :: joinSegs (cleanSegsAbs (splitSlash p.data))⟩ := by
  unfold pathClean
  split
  · rfl
  · next hno => exact absurd h (hno rest)

theorem splitSlash_data_trailing (d : String) :
    splitSlash (d.data ++ ['/']) = splitSlash d.data ++ [[]] := by
  have h1 := splitSlash_joinSegs_append (splitSlash d.data) (splitSlash_ne_nil _)
    (fun g hg => noSlash_mem_splitSlash _ g hg) []
  rw [joinSegs_splitSlash] at h1
  simpa [splitSlash] using h1

theorem pathClean_trailing {d : String} (h : isCleanPath d = true) :
    pathClean (d ++ "/") = d := by
  have hdata : (d ++ "/").data = d.data ++ ['/'] := by rw [strData_append]
  have hhead : ∀ rest, (d ++ "/").data ≠ '/' :: rest := by
    intro rest heq
    rw [hdata] at heq
    rcases hd : d.data with _ | ⟨c, cs⟩
    · exact isCleanPath_data_ne h hd
    · rw [hd] at heq
      simp at heq
      exact clean_head_not_slash h cs (by rw [hd, heq.1])
  rw [pathClean_not_slash hhead, hdata, splitSlash_data_trailing d]
  have hclean : cleanSegsRel (splitSlash d.data ++ [[]]) = splitSlash d.data := by
    unfold cleanSegsRel
    rw [List.foldl_append, foldl_cleanStepRel_plain _ (isCleanPath_segs h) []]
    simp [cleanStepRel_nilseg]
  rw [hclean, if_neg (splitSlash_ne_nil d.data), joinSegs_splitSlash]

theorem clean_append_ne_empty {d : String} (s : String) (h : isCleanPath d = true) :
    d ++ s ≠ "" := by
  intro he
  have h1 : (d ++ s).data = [] := by rw [he]
  rw [strData_append] at h1
  exact isCleanPath_data_ne h (List.append_eq_nil.1 h1).1

theorem head_ne_slash_append {d : String} (h : isCleanPath d = true) (t : List Char) :
    ∀ rest, d.data ++ t ≠ '/' :: rest := by
  intro rest heq
  rcases hd : d.data with _ | ⟨c, cs⟩
  · exact isCleanPath_data_ne h hd
  · rw [hd] at heq
    simp at heq
    exact clean_head_not_slash h cs (by rw [hd, heq.1])

theorem pathJoin2_clean_star {d : String} (h : isCleanPath d = true) :
    pathJoin2 (d ++ "/") "*" = d ++ "/*" := by
  have hne : d ++ "/" ≠ "" := clean_append_ne_empty "/" h
  unfold pathJoin2
  rw [if_neg hne, if_neg (by decide : ("*" : String) ≠ "")]
  have hdata : ((d ++ "/") ++ "/" ++ "*").data = d.data ++ '/' :: '/' :: '*' :: [] := by
    simp [strData_append]
  have hhead := head_ne_slash_append h ('/' :: '/' :: '*' :: [])
  rw [pathClean_not_slash (by rw [hdata]; exact hhead), hdata]
  have hsegs : splitSlash (d.data ++ '/' :: '/' :: '*' :: []) =
      splitSlash d.data ++ [[], ['*']] := by
    have h1 := splitSlash_joinSegs_append (splitSlash d.data) (splitSlash_ne_nil _)
      (fun g hg => noSlash_mem_splitSlash _ g hg) ('/' :: '*' :: [])
    rw [joinSegs_splitSlash] at h1
    rw [h1, splitSlash_cons_slash]
    rfl
  rw [hsegs]
  have hclean : cleanSegsRel (splitSlash d.data ++ [[], ['*']]) =
      splitSlash d.data ++ [['*']] := by
    unfold cleanSegsRel
    rw [List.foldl_append, foldl_cleanStepRel_plain _ (isCleanPath_segs h) []]
    simp only [List.nil_append, List.foldl_cons, List.foldl_nil, cleanStepRel_nilseg]
    exact cleanStepRel_plain _ (by decide)
  rw [hclean, if_neg (by simp), joinSegs_append_single _ _ (splitSlash_ne_nil _),
    joinSegs_splitSlash]
  apply strExt
  simp [strData_append]

theorem normalizePath_clean {p : String} (h : isCleanPath p = true) :
    normalizePath p = p := by
  have hne := ne_empty_of_clean h
  rw [normalizePath, if_neg hne]
  have hdata : ("/" ++ "/" ++ p).data = '/' :: '/' :: p.data := by
    rw [strData_append, strData_append]
    rfl
  rw [pathClean_slash hdata, hdata,
    splitSlash_cons_slash, splitSlash_cons_slash]
  have hclean : cleanSegsAbs ([] :: [] :: splitSlash p.data) = splitSlash p.data := by
    unfold cleanSegsAbs
    simp only [List.foldl_cons, cleanStepAbs_nilseg]
    simpa using foldl_cleanStepAbs_plain _ (isCleanPath_segs h) []
  rw [hclean, joinSegs_splitSlash]
  simp [removeLeadingSlash]

/-! Characterization of glob matching for the pattern shapes the adapter
builds. -/

theorem mem_starSuffixes_iff :
    ∀ n m : List Char, m ∈ starSuffixes n ↔ ∃ u, n = u ++ m ∧ noSlashL u = true := by
  intro n
  induction n with
  | nil =>
    intro m
    simp only [starSuffixes, List.mem_singleton]
    constructor
    · rintro rfl; exact ⟨[], rfl, rfl⟩
    · rintro ⟨u, hu, _⟩
      exact (List.append_eq_nil.1 hu.symm).2
  | cons c cs ih =>
    intro m
    constructor
    · intro hm
      by_cases hc : c = '/'
      · simp [starSuffixes, hc] at hm
        subst hm
        exact ⟨[], by simp [hc], rfl⟩
      · simp [starSuffixes, hc] at hm
        rcases hm with hm | hm
        · subst hm; exact ⟨[], rfl, rfl⟩
        · obtain ⟨u, rfl, hu⟩ := (ih m).1 hm
          refine ⟨c :: u, rfl, ?_⟩
          simp [noSlashL] at hu ⊢
          exact ⟨hc, hu⟩
    · rintro ⟨u, hu, hnu⟩
      rcases u with _ | ⟨a, u'⟩
      · simp at hu
        subst hu
        simp [starSuffixes]
      · rw [List.cons_append] at hu
        injection hu with h1 h2
        subst h1
        simp [noSlashL] at hnu
        obtain ⟨hc, hu'⟩ := hnu
        have hmem := (ih m).2 ⟨u', h2, by simpa [noSlashL] using hu'⟩
        simp [starSuffixes, hc]
        right
        exact hmem

theorem globMatch_cons_lit {c : Char} (hc1 : c ≠ '*') (hc2 : c ≠ '?') (ps : List Char) :
    globMatch (c :: ps) [] = false ∧
      ∀ (a : Char) (n' : List Char),
        globMatch (c :: ps) (a :: n') = (decide (c = a) && globMatch ps n') := by
  constructor
  · simp [globMatch, hc1]
  · intro a n'
    simp [globMatch, hc1, hc2]

theorem globMatch_star_iff (n : List Char) :
    globMatch ('*' :: []) n = true ↔ noSlashL n = true := by
  have h0 : globMatch ('*' :: []) n = (starSuffixes n).any (fun m => globMatch [] m) := rfl
  rw [h0, List.any_eq_true]
  constructor
  · rintro ⟨m, hm, hg⟩
    have hme : m = [] := by
      rcases m with _ | _
      · rfl
      · simp [globMatch] at hg
    subst hme
    obtain ⟨u, hu, hnu⟩ := (mem_starSuffixes_iff n []).1 hm
    rw [hu]
    simpa using hnu
  · intro hn
    refine ⟨[], (mem_starSuffixes_iff n []).2 ⟨n, by simp, hn⟩, ?_⟩
    rfl

theorem globMatch_lit_iff :
    ∀ lit : List Char, noMetaL lit = true → ∀ p n : List Char,
      (globMatch (lit ++ p) n = true ↔ ∃ m, n = lit ++ m ∧ globMatch p m = true) := by
  intro lit
  induction lit with
  | nil => intro _ p n; simp
  | cons c lit ih =>
    intro hm p n
    simp only [noMetaL, List.all_cons, Bool.and_eq_true, decide_eq_true_eq] at hm
    obtain ⟨⟨hc1, hc2⟩, hlit⟩ := hm
    obtain ⟨hnil, hcons⟩ := globMatch_cons_lit hc1 hc2 (lit ++ p)
    rcases n with _ | ⟨a, n'⟩
    · simp [hnil]
    · rw [List.cons_append, hcons a n']
      constructor
      · intro hg
        simp only [Bool.and_eq_true, decide_eq_true_eq] at hg
        obtain ⟨rfl, hg2⟩ := hg
        obtain ⟨m, rfl, hgm⟩ := (ih (by simpa [noMetaL] using hlit) p n').1 hg2
        exact ⟨m, rfl, hgm⟩
      · rintro ⟨m, hn, hgm⟩
        injection hn with h1 h2
        subst h1
        simp only [Bool.and_eq_true, decide_eq_true_eq]
        exact ⟨by simp, (ih (by simpa [noMetaL] using hlit) p n').2 ⟨m, h2, hgm⟩⟩

theorem globMatch_slashStar_iff (m : List Char) :
    globMatch ('/' :: '*' :: []) m = true ↔ ∃ v, m = '/' :: v ∧ noSlashL v = true := by
  obtain ⟨hnil, hcons⟩ := globMatch_cons_lit (c := '/') (by decide) (by decide) ('*' :: [])
  rcases m with _ | ⟨a, m'⟩
  · simp [hnil]
  · rw [hcons a m']
    constructor
    · intro hg
      simp only [Bool.and_eq_true, decide_eq_true_eq] at hg
      obtain ⟨rfl, hg2⟩ := hg
      exact ⟨m', rfl, (globMatch_star_iff m').1 hg2⟩
    · rintro ⟨v, hv, hnv⟩
      injection hv with h1 h2
      subst h1
      subst h2
      simp only [Bool.and_eq_true, decide_eq_true_eq]
      exact ⟨by simp, (globMatch_star_iff _).2 hnv⟩

theorem globMatch_starSlashStar_iff (n : List Char) :
    globMatch ('*' :: '/' :: '*' :: []) n = true ↔
      ∃ u v, n = u ++ '/' :: v ∧ noSlashL u = true ∧ noSlashL v = true := by
  have h0 : globMatch ('*' :: '/' :: '*' :: []) n =
      (starSuffixes n).any (fun m => globMatch ('/' :: '*' :: []) m) := rfl
  rw [h0, List.any_eq_true]
  constructor
  · rintro ⟨m, hm, hg⟩
    obtain ⟨v, rfl, hv⟩ := (globMatch_slashStar_iff m).1 hg
    obtain ⟨u, rfl, hu⟩ := (mem_starSuffixes_iff n _).1 hm
    exact ⟨u, v, rfl, hu, hv⟩
  · rintro ⟨u, v, rfl, hu, hv⟩
    exact ⟨'/' :: v, (mem_starSuffixes_iff _ _).2 ⟨u, rfl, hu⟩,
      (globMatch_slashStar_iff _).2 ⟨v, rfl, hv⟩⟩

/-! Lifting glob characterizations to strings and to getDir. -/

theorem noMetaL_append_slash {d : String} (hm : noMetaStr d = true) :
    noMetaL (d.data ++ ['/']) = true := by
  simp only [noMetaStr, noMetaL, List.all_append, Bool.and_eq_true] at hm ⊢
  exact ⟨hm, by decide⟩

theorem globChild_iff {d : String} (hm : noMetaStr d = true) (n : String) :
    globMatchStr (d ++ "/*") n = true ↔
      ∃ u : String, noSlashStr u = true ∧ n = d ++ "/" ++ u := by
  have hdata : (d ++ "/*").data = (d.data ++ ['/']) ++ ['*'] := by
    rw [strData_append]
    simp
  unfold globMatchStr
  rw [hdata, globMatch_lit_iff (d.data ++ ['/']) (noMetaL_append_slash hm) ['*'] n.data]
  constructor
  · rintro ⟨m, hm2, hg⟩
    refine ⟨⟨m⟩, (globMatch_star_iff m).1 hg, ?_⟩
    apply strExt
    rw [strData_append, strData_append]
    simpa using hm2
  · rintro ⟨u, hu, rfl⟩
    refine ⟨u.data, ?_, (globMatch_star_iff u.data).2 hu⟩
    rw [strData_append, strData_append]

theorem globGrand_iff {d : String} (hm : noMetaStr d = true) (n : String) :
    globMatchStr (d ++ "/*/*") n = true ↔
      ∃ u v : String, noSlashStr u = true ∧ noSlashStr v = true ∧
        n = d ++ "/" ++ u ++ "/" ++ v := by
  have hdata : (d ++ "/*/*").data = (d.data ++ ['/']) ++ ('*' :: '/' :: '*' :: []) := by
    rw [strData_append]
    simp
  unfold globMatchStr
  rw [hdata, globMatch_lit_iff _ (noMetaL_append_slash hm)]
  constructor
  · rintro ⟨m, hm2, hg⟩
    obtain ⟨u, v, rfl, hu, hv⟩ := (globMatch_starSlashStar_iff m).1 hg
    refine ⟨⟨u⟩, ⟨v⟩, hu, hv, ?_⟩
    apply strExt
    simp only [strData_append]
    simpa using hm2
  · rintro ⟨u, v, hu, hv, rfl⟩
    refine ⟨u.data ++ '/' :: v.data, ?_, ?_⟩
    · simp [strData_append]
    · exact (globMatch_starSlashStar_iff _).2 ⟨u.data, v.data, rfl, hu, hv⟩

/-! Characterization of getDir on clean, metacharacter-free paths. -/

theorem getDir_clean_eq {idx : List Header} {d : String} (hc : isCleanPath d = true) :
    getDir idx d =
      (if (globIndex idx (d ++ "/*")).isEmpty then none
       else some (FInfo.dir d (maxMod (globIndex idx (d ++ "/*"))))) := by
  unfold getDir
  simp only [addTrailingSlash_clean hc, pathJoin2_clean_star hc, pathClean_trailing hc]

theorem globIndex_child_empty_iff {idx : List Header} {d : String}
    (hm : noMetaStr d = true) :
    (globIndex idx (d ++ "/*")).isEmpty = true ↔
      ∀ e ∈ idx, ¬ directChild d e.name := by
  unfold globIndex
  rw [List.isEmpty_iff, List.filter_eq_nil_iff]
  constructor
  · intro hall e he hdc
    exact hall e he ((globChild_iff hm e.name).2 hdc)
  · intro hall e he hg
    exact hall e he ((globChild_iff hm e.name).1 hg)

theorem getDir_none_iff {idx : List Header} {d : String}
    (hc : isCleanPath d = true) (hm : noMetaStr d = true) :
    getDir idx d = none ↔ ∀ e ∈ idx, ¬ directChild d e.name := by
  rw [getDir_clean_eq hc]
  by_cases he : (globIndex idx (d ++ "/*")).isEmpty = true
  · rw [if_pos he]
    exact ⟨fun _ => (globIndex_child_empty_iff hm).1 he, fun _ => rfl⟩
  · rw [if_neg he]
    constructor
    · intro hsome
      cases hsome
    · intro hall
      exact absurd ((globIndex_child_empty_iff hm).2 hall) he

theorem getDir_some_of {idx : List Header} {d : String}
    (hc : isCleanPath d = true) (hm : noMetaStr d = true)
    (h : ∃ e ∈ idx, directChild d e.name) :
    getDir idx d = some (FInfo.dir d (maxMod (globIndex idx (d ++ "/*")))) := by
  rw [getDir_clean_eq hc]
  rw [if_neg ?hne]
  case hne =>
    intro he
    obtain ⟨e, hmem, hdc⟩ := h
    exact ((globIndex_child_empty_iff hm).1 he) e hmem hdc

/-! Evaluation helpers for the facade operations on an open session. -/

theorem stat_eval {env : Env} {s : SivaState} (hopen : s.rwOpen = true)
    (hidx : env.indexOK = true) (p : String) :
    sivaFS.Stat env s p =
      (match indexFind (filterIndex s.log) (normalizePath p) with
       | some e => (s, .ok (.file e))
       | none =>
         match getDir (filterIndex s.log) (normalizePath p) with
         | some dinfo => (s, .ok dinfo)
         | none => (s, .error .notExist)) := by
  unfold sivaFS.Stat sivaFS.ensureOpen sivaFS.getIndex
  simp [hopen, hidx]

theorem remove_eval {env : Env} {s : SivaState} (hopen : s.rwOpen = true)
    (hidx : env.indexOK = true) (now : Nat) (p : String) :
    sivaFS.Remove env now s p =
      (match indexFind (filterIndex s.log) (normalizePath p) with
       | some _ =>
         if env.writeHeaderOK then
           ({ s with log := s.log ++ [⟨normalizePath p, 0, now, true⟩] }, .ok ())
         else (s, .error .underlying)
       | none =>
         match getDir (filterIndex s.log) (normalizePath p) with
         | some _ => (s, .error (.pathErr "remove" (normalizePath p) .enotempty))
         | none => (s, .error .notExist)) := by
  unfold sivaFS.Remove sivaFS.ensureOpen sivaFS.getIndex
  simp [hopen, hidx]

theorem mkdirAll_eval {env : Env} {s : SivaState} (hopen : s.rwOpen = true)
    (hidx : env.indexOK = true) (filename : String) :
    sivaFS.MkdirAll env s filename =
      (match indexFind (filterIndex s.log) filename with
       | some _ => (s, .error (.pathErr "mkdir" filename .enotdir))
       | none => (s, .ok ())) := by
  unfold sivaFS.MkdirAll sivaFS.ensureOpen sivaFS.getIndex
  simp [hopen, hidx]

theorem readDir_eval {env : Env} {s : SivaState} (hopen : s.rwOpen = true)
    (hidx : env.indexOK = true) (p : String) :
    sivaFS.ReadDir env s p =
      (s, .ok (listDirs (filterIndex s.log) (normalizePath p) ++
               listFiles (filterIndex s.log) (normalizePath p))) := by
  unfold sivaFS.ReadDir sivaFS.ensureOpen sivaFS.getIndex
  simp [hopen, hidx]

/-- C5: Stat resolves an exact non-deleted entry before attempting
directory synthesis, and fails with not-found exactly when neither an
exact entry nor a synthetic directory (an entry directly beneath the
path) resolves. -/
theorem stat_exact_match_priority
    (env : Env) (s : SivaState) (p : String)
    (hopen : s.rwOpen = true) (hidx : env.indexOK = true)
    (hc : isCleanPath p = true) (hm : noMetaStr p = true) :
    (∀ e : Header, indexFind (filterIndex s.log) p = some e →
        sivaFS.Stat env s p = (s, .ok (.file e))) ∧
    ((sivaFS.Stat env s p).2 = .error .notExist ↔
      (indexFind (filterIndex s.log) p = none ∧
        ∀ e ∈ filterIndex s.log, ¬ directChild p e.name)) := by
  have hnorm := normalizePath_clean hc
  rw [stat_eval hopen hidx p, hnorm]
  constructor
  · intro e he
    rw [he]
  · cases hf : indexFind (filterIndex s.log) p with
    | some e => simp [hf]
    | none =>
      cases hd : getDir (filterIndex s.log) p with
      | some dinfo =>
        simp only [hf]
        constructor
        · intro habs
          simp at habs
        · rintro ⟨_, hall⟩
          rw [(getDir_none_iff hc hm).2 hall] at hd
          cases hd
      | none =>
        simp only [hf]
        refine ⟨fun _ => ⟨?_, (getDir_none_iff hc hm).1 hd⟩, fun _ => ?_⟩ <;> simp [hd]

/-- Witness for C5: an exact entry wins over the synthetic directory the
nested entry would induce. -/
theorem stat_exact_match_priority_witness :
    sivaFS.Stat envOK ⟨true, false, [⟨"a", 438, 1, false⟩, ⟨"a/b", 438, 2, false⟩]⟩ "a" =
      (⟨true, false, [⟨"a", 438, 1, false⟩, ⟨"a/b", 438, 2, false⟩]⟩,
       .ok (.file ⟨"a", 438, 1, false⟩)) := by
  exact (stat_exact_match_priority envOK
    ⟨true, false, [⟨"a", 438, 1, false⟩, ⟨"a/b", 438, 2, false⟩]⟩ "a"
    rfl rfl (by decide) (by decide)).1 ⟨"a", 438, 1, false⟩ (by decide)

/-- C3 amended: on a clean path with no exact entry, Stat synthesizes a
directory exactly when some non-deleted entry lies one level beneath the
path, and reports absence otherwise; entries nested deeper are not seen
by the directory probe. -/
theorem stat_dir_synthesis_one_level
    (env : Env) (s : SivaState) (d : String)
    (hopen : s.rwOpen = true) (hidx : env.indexOK = true)
    (hc : isCleanPath d = true) (hm : noMetaStr d = true)
    (hnone : indexFind (filterIndex s.log) d = none) :
    ((∃ e ∈ filterIndex s.log, directChild d e.name) →
        ∃ t, sivaFS.Stat env s d = (s, .ok (.dir d t))) ∧
    ((∀ e ∈ filterIndex s.log, ¬ directChild d e.name) →
        sivaFS.Stat env s d = (s, .error .notExist)) := by
  have hnorm := normalizePath_clean hc
  rw [stat_eval hopen hidx d, hnorm, hnone]
  constructor
  · intro hex
    rw [getDir_some_of hc hm hex]
    exact ⟨maxMod (globIndex (filterIndex s.log) (d ++ "/*")), rfl⟩
  · intro hall
    rw [(getDir_none_iff hc hm).2 hall]

/-- Witness for the amended C3: a direct child makes Stat synthesize the
directory, and an unrelated entry leaves the path absent. -/
theorem stat_dir_synthesis_one_level_witness :
    (∃ t, sivaFS.Stat envOK ⟨true, false, [⟨"a/b", 438, 7, false⟩]⟩ "a" =
      (⟨true, false, [⟨"a/b", 438, 7, false⟩]⟩, .ok (.dir "a" t))) ∧
    sivaFS.Stat envOK ⟨true, false, [⟨"x", 438, 7, false⟩]⟩ "a" =
      (⟨true, false, [⟨"x", 438, 7, false⟩]⟩, .error .notExist) := by
  constructor
  · exact (stat_dir_synthesis_one_level envOK ⟨true, false, [⟨"a/b", 438, 7, false⟩]⟩ "a"
      rfl rfl (by decide) (by decide) (by decide)).1
      ⟨⟨"a/b", 438, 7, false⟩, by decide, ⟨"b", by decide, by decide⟩⟩
  · refine (stat_dir_synthesis_one_level envOK ⟨true, false, [⟨"x", 438, 7, false⟩]⟩ "a"
      rfl rfl (by decide) (by decide) (by decide)).2 ?_
    intro e he
    rcases List.mem_singleton.1 he with rfl
    rintro ⟨u, _, heq⟩
    have hdt := congrArg String.data heq
    simp [strData_append] at hdt

/-- C4 amended: Remove performs a three-way case split: an exact entry
gets a tombstone header (mode zero, deleted flag) appended; otherwise a
synthetic directory (an entry directly beneath the path) yields the
directory-not-empty error; otherwise not-found. -/
theorem remove_three_way_direct_children
    (env : Env) (now : Nat) (s : SivaState) (p : String)
    (hopen : s.rwOpen = true) (hidx : env.indexOK = true)
    (hwh : env.writeHeaderOK = true)
    (hc : isCleanPath p = true) (hm : noMetaStr p = true) :
    (∀ e : Header, indexFind (filterIndex s.log) p = some e →
        sivaFS.Remove env now s p =
          ({ s with log := s.log ++ [⟨p, 0, now, true⟩] }, .ok ())) ∧
    (indexFind (filterIndex s.log) p = none →
      ((∃ e ∈ filterIndex s.log, directChild p e.name) →
          sivaFS.Remove env now s p = (s, .error (.pathErr "remove" p .enotempty))) ∧
      ((∀ e ∈ filterIndex s.log, ¬ directChild p e.name) →
          sivaFS.Remove env now s p = (s, .error .notExist))) := by
  have hnorm := normalizePath_clean hc
  rw [remove_eval hopen hidx now p, hnorm]
  constructor
  · intro e he
    rw [he, if_pos hwh]
  · intro hf
    rw [hf]
    constructor
    · intro hex
      rw [getDir_some_of hc hm hex]
    · intro hall
      rw [(getDir_none_iff hc hm).2 hall]

/-- Witness for the amended C4 covering all three branches. -/
theorem remove_three_way_direct_children_witness :
    sivaFS.Remove envOK 9 ⟨true, false, [⟨"a", 438, 3, false⟩]⟩ "a" =
      (⟨true, false, [⟨"a", 438, 3, false⟩, ⟨"a", 0, 9, true⟩]⟩, .ok ()) ∧
    sivaFS.Remove envOK 9 ⟨true, false, [⟨"a/b", 438, 3, false⟩]⟩ "a" =
      (⟨true, false, [⟨"a/b", 438, 3, false⟩]⟩, .error (.pathErr "remove" "a" .enotempty)) ∧
    sivaFS.Remove envOK 9 ⟨true, false, [⟨"x", 438, 3, false⟩]⟩ "a" =
      (⟨true, false, [⟨"x", 438, 3, false⟩]⟩, .error .notExist) := by
  refine ⟨?_, ?_, ?_⟩
  · exact (remove_three_way_direct_children envOK 9 ⟨true, false, [⟨"a", 438, 3, false⟩]⟩ "a"
      rfl rfl rfl (by decide) (by decide)).1 ⟨"a", 438, 3, false⟩ (by decide)
  · exact ((remove_three_way_direct_children envOK 9 ⟨true, false, [⟨"a/b", 438, 3, false⟩]⟩ "a"
      rfl rfl rfl (by decide) (by decide)).2 (by decide)).1
      ⟨⟨"a/b", 438, 3, false⟩, by decide, ⟨"b", by decide, by decide⟩⟩
  · refine ((remove_three_way_direct_children envOK 9 ⟨true, false, [⟨"x", 438, 3, false⟩]⟩ "a"
      rfl rfl rfl (by decide) (by decide)).2 (by decide)).2 ?_
    intro e he
    rcases List.mem_singleton.1 he with rfl
    rintro ⟨u, _, heq⟩
    have hdt := congrArg String.data heq
    simp [strData_append] at hdt

/-- C8: MkdirAll looks the raw caller-supplied path up in the filtered
index without normalizing it; it changes no state, succeeds exactly when
no non-deleted entry bears that exact name, fails with the
not-a-directory error exactly on an exact match, and in particular any
spelling with a leading slash succeeds when the stored entry names carry
none. -/
theorem mkdirAll_exact_match_characterization
    (env : Env) (s : SivaState) (filename : String)
    (hopen : s.rwOpen = true) (hidx : env.indexOK = true) :
    (sivaFS.MkdirAll env s filename = (s, .ok ()) ↔
      (∀ e ∈ filterIndex s.log, e.name ≠ filename)) ∧
    (sivaFS.MkdirAll env s filename = (s, .error (.pathErr "mkdir" filename .enotdir)) ↔
      (∃ e ∈ filterIndex s.log, e.name = filename)) ∧
    ((∀ e ∈ s.log, e.name.data.head? ≠ some '/') → filename.data.head? = some '/' →
      sivaFS.MkdirAll env s filename = (s, .ok ())) := by
  have heval := mkdirAll_eval hopen hidx filename
  refine ⟨?_, ?_, ?_⟩
  · rw [heval]
    cases hf : indexFind (filterIndex s.log) filename with
    | none =>
      constructor
      · intro _ e he hname
        have h2 := List.find?_eq_none.1 hf e he
        simp at h2
        exact h2 hname
      · intro _; rfl
    | some e =>
      constructor
      · intro habs
        simp at habs
      · intro hall
        have hmem := List.mem_of_find?_eq_some hf
        have hp := List.find?_some hf
        simp at hp
        exact absurd hp (by simpa using hall e hmem)
  · rw [heval]
    cases hf : indexFind (filterIndex s.log) filename with
    | none =>
      constructor
      · intro habs
        simp at habs
      · rintro ⟨e, he, hname⟩
        have h2 := List.find?_eq_none.1 hf e he
        simp at h2
        exact absurd hname h2
    | some e =>
      constructor
      · intro _
        have hmem := List.mem_of_find?_eq_some hf
        have hp := List.find?_some hf
        simp at hp
        exact ⟨e, hmem, hp⟩
      · intro _; rfl
  · intro hnames hslash
    rw [heval]
    cases hf : indexFind (filterIndex s.log) filename with
    | none => rfl
    | some e =>
      have hmem := filterIndex_subset (List.mem_of_find?_eq_some hf)
      have hp := List.find?_some hf
      simp at hp
      rw [← hp] at hslash
      exact absurd hslash (hnames e hmem)

/-- Witness for C8: an exact match fails with not-a-directory while the
slash-prefixed spelling of the same name succeeds. -/
theorem mkdirAll_exact_match_characterization_witness :
    sivaFS.MkdirAll envOK ⟨true, false, [⟨"foo", 438, 1, false⟩]⟩ "foo" =
      (⟨true, false, [⟨"foo", 438, 1, false⟩]⟩, .error (.pathErr "mkdir" "foo" .enotdir)) ∧
    sivaFS.MkdirAll envOK ⟨true, false, [⟨"foo", 438, 1, false⟩]⟩ "/foo" =
      (⟨true, false, [⟨"foo", 438, 1, false⟩]⟩, .ok ()) := by
  constructor
  · exact (mkdirAll_exact_match_characterization envOK
      ⟨true, false, [⟨"foo", 438, 1, false⟩]⟩ "foo" rfl rfl).2.1.mpr
      ⟨⟨"foo", 438, 1, false⟩, by decide, rfl⟩
  · exact (mkdirAll_exact_match_characterization envOK
      ⟨true, false, [⟨"foo", 438, 1, false⟩]⟩ "/foo" rfl rfl).2.2
      (by decide) (by decide)

/-- C6 amended: on an open, writer-free session OpenFile reports the
unsupported-operation error exactly for create-without-truncate,
create-with-read-write, and non-create requests carrying a write
direction; O_APPEND is never examined, so append requests that are
otherwise well-formed are accepted rather than rejected. -/
theorem openFile_unsupported_flag_characterization
    (env : Env) (now : Nat) (s : SivaState) (p : String) (flag mode : Nat)
    (hopen : s.rwOpen = true) (hbusy : s.fileWriteModeOpen = false) :
    (sivaFS.OpenFile env now s p flag mode).2 = .error .notSupported ↔
      ((hasFlag flag O_CREATE = true ∧ hasFlag flag O_TRUNC = false) ∨
       (hasFlag flag O_CREATE = true ∧ hasFlag flag O_RDWR = true) ∨
       (hasFlag flag O_CREATE = false ∧
         (hasFlag flag O_RDWR = true ∨ hasFlag flag O_WRONLY = true))) := by
  cases hf : indexFind (filterIndex s.log) (normalizePath p) <;>
    cases hC : hasFlag flag O_CREATE <;> cases hT : hasFlag flag O_TRUNC <;>
    cases hR : hasFlag flag O_RDWR <;> cases hW : hasFlag flag O_WRONLY <;>
    cases hE : env.writeHeaderOK <;> cases hI : env.indexOK <;>
    cases hG : env.getOK <;>
    simp [sivaFS.OpenFile, sivaFS.ensureOpen, sivaFS.createFile, sivaFS.openFile,
      sivaFS.getIndex, hopen, hbusy, hC, hT, hR, hW, hE, hI, hG, hf, hasFlag_rdonly]

/-- Witness for the amended C6: a read-write request is rejected while a
create request carrying O_APPEND passes the flag gate. -/
theorem openFile_unsupported_flag_characterization_witness :
    (sivaFS.OpenFile envOK 1 ⟨true, false, []⟩ "x" 2 438).2 = .error .notSupported ∧
    ¬ (sivaFS.OpenFile envOK 1 ⟨true, false, []⟩ "x" 1601 438).2 = .error .notSupported := by
  constructor
  · exact (openFile_unsupported_flag_characterization envOK 1 ⟨true, false, []⟩ "x" 2 438
      rfl rfl).mpr (Or.inr (Or.inr ⟨by decide, Or.inl (by decide)⟩))
  · intro habs
    have h := (openFile_unsupported_flag_characterization envOK 1 ⟨true, false, []⟩ "x" 1601 438
      rfl rfl).mp habs
    revert h
    decide

/-! Lemmas about the listDirs accumulation table. -/

theorem ifmax (a b : Nat) : (if a < b then b else a) = max a b := by
  rcases Nat.lt_or_ge a b with h | h
  · rw [if_pos h, Nat.max_eq_right (Nat.le_of_lt h)]
  · rw [if_neg (Nat.not_lt.2 h), Nat.max_eq_left h]

theorem lookup_updateMax_self (m : List (String × Nat)) (k : String) (v : Nat) :
    (updateMax m k v).lookup k =
      some (match m.lookup k with | none => v | some w => max w v) := by
  induction m with
  | nil => simp [updateMax, List.lookup]
  | cons kv rest ih =>
    obtain ⟨k2, v2⟩ := kv
    by_cases hk : k2 = k
    · subst hk
      simp [updateMax, List.lookup, ifmax]
    · simp [updateMax, List.lookup, hk, beq_false_of_ne (Ne.symm hk), ih]

theorem lookup_updateMax_ne (m : List (String × Nat)) (k : String) (v : Nat)
    (k2 : String) (h : k2 ≠ k) :
    (updateMax m k v).lookup k2 = m.lookup k2 := by
  induction m with
  | nil => simp [updateMax, List.lookup, beq_false_of_ne h]
  | cons kv rest ih =>
    obtain ⟨k3, v3⟩ := kv
    by_cases hk : k3 = k
    · subst hk
      simp [updateMax, List.lookup, beq_false_of_ne h]
    · simp [updateMax, List.lookup, hk, ih]

theorem keys_updateMax (m : List (String × Nat)) (k : String) (v : Nat) :
    (updateMax m k v).map Prod.fst =
      (if k ∈ m.map Prod.fst then m.map Prod.fst else m.map Prod.fst ++ [k]) := by
  induction m with
  | nil => simp [updateMax]
  | cons kv rest ih =>
    obtain ⟨k2, v2⟩ := kv
    by_cases hk : k2 = k
    · subst hk
      simp [updateMax]
    · simp only [updateMax, if_neg hk, List.map_cons, ih]
      by_cases hmem : k ∈ rest.map Prod.fst
      · simp [hmem, hk, Ne.symm hk]
      · simp [hmem, hk, Ne.symm hk]

theorem nodup_keys_updateMax {m : List (String × Nat)} (k : String) (v : Nat)
    (h : (m.map Prod.fst).Nodup) : ((updateMax m k v).map Prod.fst).Nodup := by
  rw [keys_updateMax]
  by_cases hmem : k ∈ m.map Prod.fst
  · simpa [hmem] using h
  · simp only [if_neg hmem]
    simp [List.nodup_append, h, hmem]

theorem mem_iff_lookup (m : List (String × Nat)) (h : (m.map Prod.fst).Nodup)
    (k : String) (v : Nat) : (k, v) ∈ m ↔ m.lookup k = some v := by
  induction m with
  | nil => simp [List.lookup]
  | cons kv rest ih =>
    obtain ⟨k2, v2⟩ := kv
    simp only [List.map_cons, List.nodup_cons] at h
    obtain ⟨hk2, hrest⟩ := h
    by_cases hk : k = k2
    · subst hk
      simp only [List.lookup, beq_self_eq_true]
      constructor
      · intro hm
        rcases List.mem_cons.1 hm with hm | hm
        · injection hm with h1 h2
          simp [h2]
        · exact absurd (List.mem_map_of_mem Prod.fst hm) hk2
      · intro hl
        injection hl with h1
        simp [h1]
    · simp only [List.lookup, beq_false_of_ne hk]
      rw [← ih hrest]
      constructor
      · intro hm
        rcases List.mem_cons.1 hm with hm | hm
        · injection hm with h1 h2
          exact absurd h1 hk
        · exact hm
      · intro hm
        exact List.mem_cons_of_mem _ hm

theorem nodup_keys_foldl_updateMax :
    ∀ (es : List Header) (m : List (String × Nat)), (m.map Prod.fst).Nodup →
      (((es.foldl (fun m e => updateMax m (parentDir e.name) e.modTime) m).map
        Prod.fst).Nodup) := by
  intro es
  induction es with
  | nil => intro m h; exact h
  | cons e es ih =>
    intro m h
    rw [List.foldl_cons]
    exact ih _ (nodup_keys_updateMax _ _ h)

theorem lookup_foldl_updateMax (k : String) :
    ∀ (es : List Header) (m : List (String × Nat)),
      (es.foldl (fun m e => updateMax m (parentDir e.name) e.modTime) m).lookup k =
        es.foldl
          (fun o e =>
            if parentDir e.name = k then
              some (match o with | none => e.modTime | some w => max w e.modTime)
            else o)
          (m.lookup k) := by
  intro es
  induction es with
  | nil => intro m; rfl
  | cons e es ih =>
    intro m
    rw [List.foldl_cons, List.foldl_cons, ih]
    congr 1
    by_cases hp : parentDir e.name = k
    · rw [if_pos hp, hp, lookup_updateMax_self]
    · rw [if_neg hp, lookup_updateMax_ne _ _ _ _ (fun h2 => hp h2.symm)]

theorem foldl_optmax_some (k : String) :
    ∀ (es : List Header) (w : Nat),
      es.foldl
        (fun o e =>
          if parentDir e.name = k then
            some (match o with | none => e.modTime | some w2 => max w2 e.modTime)
          else o)
        (some w) =
      some ((es.filter (fun e => parentDir e.name = k)).foldl
        (fun a e => max a e.modTime) w) := by
  intro es
  induction es with
  | nil => intro w; rfl
  | cons e es ih =>
    intro w
    by_cases hp : parentDir e.name = k
    · rw [List.foldl_cons, if_pos hp]
      rw [ih (max w e.modTime)]
      rw [List.filter_cons_of_pos (by simp [hp]), List.foldl_cons]
    · rw [List.foldl_cons, if_neg hp, ih w,
        List.filter_cons_of_neg (by simp [hp])]

theorem foldl_optmax_eval (k : String) :
    ∀ es : List Header,
      es.foldl
        (fun o e =>
          if parentDir e.name = k then
            some (match o with | none => e.modTime | some w2 => max w2 e.modTime)
          else o)
        none =
      (match es.filter (fun e => parentDir e.name = k) with
       | [] => none
       | f :: fs => some (fs.foldl (fun a e => max a e.modTime) f.modTime)) := by
  intro es
  induction es with
  | nil => rfl
  | cons e es ih =>
    by_cases hp : parentDir e.name = k
    · rw [List.foldl_cons, if_pos hp]
      rw [foldl_optmax_some k es e.modTime]
      rw [List.filter_cons_of_pos (by simp [hp])]
    · rw [List.foldl_cons, if_neg hp, ih,
        List.filter_cons_of_neg (by simp [hp])]

theorem foldl_max_ge :
    ∀ (fs : List Header) (w : Nat),
      w ≤ fs.foldl (fun a e => max a e.modTime) w ∧
      ∀ e ∈ fs, e.modTime ≤ fs.foldl (fun a e => max a e.modTime) w := by
  intro fs
  induction fs with
  | nil => intro w; exact ⟨Nat.le_refl w, by simp⟩
  | cons f fs ih =>
    intro w
    rw [List.foldl_cons]
    obtain ⟨h1, h2⟩ := ih (max w f.modTime)
    refine ⟨Nat.le_trans (Nat.le_max_left _ _) h1, ?_⟩
    intro e he
    rcases List.mem_cons.1 he with rfl | he
    · exact Nat.le_trans (Nat.le_max_right _ _) h1
    · exact h2 e he

theorem foldl_max_attained :
    ∀ (fs : List Header) (w : Nat),
      fs.foldl (fun a e => max a e.modTime) w = w ∨
      ∃ e ∈ fs, fs.foldl (fun a e => max a e.modTime) w = e.modTime := by
  intro fs
  induction fs with
  | nil => intro w; exact Or.inl rfl
  | cons f fs ih =>
    intro w
    rw [List.foldl_cons]
    rcases ih (max w f.modTime) with h | ⟨e, he, hval⟩
    · rw [h]
      rcases Nat.le_total w f.modTime with hle | hle
      · exact Or.inr ⟨f, List.mem_cons_self _ _, Nat.max_eq_right hle⟩
      · exact Or.inl (Nat.max_eq_left hle)
    · exact Or.inr ⟨e, List.mem_cons_of_mem _ he, hval⟩

/-! parentDir on clean two-level names. -/

theorem parentDir_eval2 {n : String} {g : List Char} {gs : List (List Char)}
    (hsp : splitSlash n.data = g :: gs) (hne : gs ≠ []) :
    parentDir n =
      (if cleanSegsRel ((g :: gs).dropLast) = [] then "."
       else ⟨joinSegs (cleanSegsRel ((g :: gs).dropLast))⟩) := by
  rcases gs with _ | ⟨g2, gs⟩
  · exact absurd rfl hne
  · unfold parentDir
    rw [hsp]

theorem parentDir_of_clean {d u v : String} (_hc : isCleanPath d = true)
    (hn : isCleanPath (d ++ "/" ++ u ++ "/" ++ v) = true)
    (hu : noSlashStr u = true) (hv : noSlashStr v = true) :
    parentDir (d ++ "/" ++ u ++ "/" ++ v) = d ++ "/" ++ u := by
  have hdat : (d ++ "/" ++ u ++ "/" ++ v).data =
      d.data ++ '/' :: (u.data ++ '/' :: v.data) := by
    simp [strData_append]
  have hsp : splitSlash (d ++ "/" ++ u ++ "/" ++ v).data =
      splitSlash d.data ++ [u.data, v.data] := by
    rw [hdat]
    conv_lhs =>
      rw [show d.data = joinSegs (splitSlash d.data) from (joinSegs_splitSlash _).symm]
    rw [splitSlash_joinSegs_append _ (splitSlash_ne_nil _)
      (fun g hg => noSlash_mem_splitSlash _ g hg)]
    rw [splitSlash_append_slash u.data hu, splitSlash_noSlash v.data hv]
  rcases hseg : splitSlash d.data with _ | ⟨g0, gs0⟩
  · exact absurd hseg (splitSlash_ne_nil _)
  · have hsp2 : splitSlash (d ++ "/" ++ u ++ "/" ++ v).data =
        g0 :: (gs0 ++ [u.data, v.data]) := by
      rw [hsp, hseg]
      simp
    rw [parentDir_eval2 hsp2 (by simp)]
    have hdrop : (g0 :: (gs0 ++ [u.data, v.data])).dropLast = (g0 :: gs0) ++ [u.data] := by
      rw [show g0 :: (gs0 ++ [u.data, v.data]) = ((g0 :: gs0) ++ [u.data]) ++ [v.data] from
        by simp]
      exact List.dropLast_concat
    rw [hdrop]
    have hall : ∀ g ∈ (g0 :: gs0) ++ [u.data], plainSeg g = true := by
      intro g hg
      apply isCleanPath_segs hn
      rw [hsp, hseg]
      rcases List.mem_append.1 hg with hg | hg
      · exact List.mem_append.2 (Or.inl hg)
      · exact List.mem_append.2 (Or.inr (by simpa using Or.inl (List.mem_singleton.1 hg)))
    have hcl : cleanSegsRel ((g0 :: gs0) ++ [u.data]) = (g0 :: gs0) ++ [u.data] := by
      unfold cleanSegsRel
      rw [foldl_cleanStepRel_plain _ hall []]
      simp
    rw [hcl, if_neg (by simp)]
    apply strExt
    show joinSegs ((g0 :: gs0) ++ [u.data]) = (d ++ "/" ++ u).data
    rw [joinSegs_append_single _ _ (by simp), ← hseg, joinSegs_splitSlash]
    simp [strData_append]

/-! Characterization of listDirs. -/

theorem matched_key_iff {d k : String} (hc : isCleanPath d = true)
    (hm : noMetaStr d = true) {e : Header} (hname : isCleanPath e.name = true) :
    (globMatchStr (d ++ "/*/*") e.name = true ∧ parentDir e.name = k) ↔
      nestedTwo d k e.name := by
  constructor
  · rintro ⟨hg, hp⟩
    obtain ⟨u, v, hu, hv, heq⟩ := (globGrand_iff hm e.name).1 hg
    rw [heq] at hp
    rw [parentDir_of_clean hc (by rw [← heq]; exact hname) hu hv] at hp
    exact ⟨u, v, hu, hv, hp.symm, by rw [heq, ← hp]⟩
  · rintro ⟨u, v, hu, hv, hk, hn⟩
    subst hk
    constructor
    · exact (globGrand_iff hm e.name).2 ⟨u, v, hu, hv, hn⟩
    · rw [hn]
      exact parentDir_of_clean hc (by rw [← hn]; exact hname) hu hv

theorem pat_two_eq {d : String} (hc : isCleanPath d = true) :
    addTrailingSlash d ++ "*/*" = d ++ "/*/*" := by
  rw [addTrailingSlash_clean hc]
  apply strExt
  simp [strData_append]

theorem pat_one_eq {d : String} (hc : isCleanPath d = true) :
    addTrailingSlash d ++ "*" = d ++ "/*" := by
  rw [addTrailingSlash_clean hc]
  apply strExt
  simp [strData_append]

theorem mem_dirfilter_iff {idx : List Header} {d k : String}
    (hc : isCleanPath d = true) (hm : noMetaStr d = true)
    (hnames : ∀ e ∈ idx, isCleanPath e.name = true) (e : Header) :
    e ∈ (globIndex idx (d ++ "/*/*")).filter (fun e => parentDir e.name = k) ↔
      (e ∈ idx ∧ nestedTwo d k e.name) := by
  unfold globIndex
  rw [List.mem_filter, List.mem_filter]
  constructor
  · rintro ⟨⟨hi, hg⟩, hp⟩
    exact ⟨hi, (matched_key_iff hc hm (hnames e hi)).1
      ⟨hg, by simpa using hp⟩⟩
  · rintro ⟨hi, hn⟩
    obtain ⟨hg, hp⟩ := (matched_key_iff hc hm (hnames e hi)).2 hn
    exact ⟨⟨hi, hg⟩, by simpa using hp⟩

theorem lookup_dir_table_iff {idx : List Header} {d k : String} {t : Nat}
    (hc : isCleanPath d = true) (hm : noMetaStr d = true)
    (hnames : ∀ e ∈ idx, isCleanPath e.name = true) :
    (((globIndex idx (d ++ "/*/*")).foldl
        (fun m e => updateMax m (parentDir e.name) e.modTime) []).lookup k = some t) ↔
      ((∃ e ∈ idx, nestedTwo d k e.name ∧ e.modTime = t) ∧
       (∀ e ∈ idx, nestedTwo d k e.name → e.modTime ≤ t)) := by
  rw [lookup_foldl_updateMax,
    show (([] : List (String × Nat)).lookup k) = none from rfl,
    foldl_optmax_eval]
  cases hfil : (globIndex idx (d ++ "/*/*")).filter (fun e => parentDir e.name = k) with
  | nil =>
    constructor
    · intro habs
      cases habs
    · rintro ⟨⟨e0, he0, hn0, ht0⟩, _⟩
      have := (mem_dirfilter_iff hc hm hnames e0).2 ⟨he0, hn0⟩
      rw [hfil] at this
      cases this
  | cons f fs =>
    have hmemf : ∀ e ∈ f :: fs, e ∈ idx ∧ nestedTwo d k e.name := by
      intro e he
      rw [← hfil] at he
      exact (mem_dirfilter_iff hc hm hnames e).1 he
    constructor
    · intro heq
      injection heq with ht
      constructor
      · rcases foldl_max_attained fs f.modTime with hat | ⟨e, he, hat⟩
        · exact ⟨f, (hmemf f (List.mem_cons_self _ _)).1,
            (hmemf f (List.mem_cons_self _ _)).2, by rw [← ht, hat]⟩
        · exact ⟨e, (hmemf e (List.mem_cons_of_mem _ he)).1,
            (hmemf e (List.mem_cons_of_mem _ he)).2, by rw [← ht, hat]⟩
      · intro e he hnt
        have hef : e ∈ f :: fs := by
          rw [← hfil]
          exact (mem_dirfilter_iff hc hm hnames e).2 ⟨he, hnt⟩
        rcases List.mem_cons.1 hef with rfl | hef
        · rw [← ht]
          exact (foldl_max_ge fs e.modTime).1
        · rw [← ht]
          exact (foldl_max_ge fs f.modTime).2 e hef
    · rintro ⟨⟨e0, he0, hn0, ht0⟩, hbound⟩
      have hle : fs.foldl (fun a e => max a e.modTime) f.modTime ≤ t := by
        rcases foldl_max_attained fs f.modTime with hat | ⟨e, he, hat⟩
        · rw [hat]
          exact hbound f (hmemf f (List.mem_cons_self _ _)).1
            (hmemf f (List.mem_cons_self _ _)).2
        · rw [hat]
          exact hbound e (hmemf e (List.mem_cons_of_mem _ he)).1
            (hmemf e (List.mem_cons_of_mem _ he)).2
      have hge : t ≤ fs.foldl (fun a e => max a e.modTime) f.modTime := by
        have he0f : e0 ∈ f :: fs := by
          rw [← hfil]
          exact (mem_dirfilter_iff hc hm hnames e0).2 ⟨he0, hn0⟩
        rcases List.mem_cons.1 he0f with heq0 | hef
        · rw [← ht0, heq0]
          exact (foldl_max_ge fs f.modTime).1
        · rw [← ht0]
          exact (foldl_max_ge fs f.modTime).2 e0 hef
      show some (fs.foldl (fun a e => max a e.modTime) f.modTime) = some t
      rw [Nat.le_antisymm hle hge]

theorem listDirs_mem_iff (idx : List Header) (d k : String) (t : Nat)
    (hc : isCleanPath d = true) (hm : noMetaStr d = true)
    (hnames : ∀ e ∈ idx, isCleanPath e.name = true) :
    FInfo.dir k t ∈ listDirs idx d ↔
      ((∃ e ∈ idx, nestedTwo d k e.name ∧ e.modTime = t) ∧
       (∀ e ∈ idx, nestedTwo d k e.name → e.modTime ≤ t)) := by
  have hld : listDirs idx d =
      ((globIndex idx (d ++ "/*/*")).foldl
        (fun m e => updateMax m (parentDir e.name) e.modTime) []).map
        (fun kv => FInfo.dir kv.1 kv.2) := by
    unfold listDirs
    simp only [pat_two_eq hc]
  rw [hld]
  have hnd := nodup_keys_foldl_updateMax (globIndex idx (d ++ "/*/*")) [] (by simp)
  constructor
  · intro hmem
    obtain ⟨kv, hkv, heq⟩ := List.mem_map.1 hmem
    obtain ⟨k2, t2⟩ := kv
    injection heq with h1 h2
    subst h1
    subst h2
    exact (lookup_dir_table_iff hc hm hnames).1 ((mem_iff_lookup _ hnd _ _).1 hkv)
  · intro hr
    exact List.mem_map.2 ⟨(k, t),
      (mem_iff_lookup _ hnd _ _).2 ((lookup_dir_table_iff hc hm hnames).2 hr), rfl⟩

/-- C7 amended: ReadDir lists as child directories exactly the immediate
next segments under the path that have a non-deleted entry exactly one
level beneath them (entries nested deeper are invisible), each synthetic
directory carrying the maximum modTime over the entries exactly one
level beneath that segment; in particular creating a/b/c makes
readDir of a yield the synthetic directory a/b with that write time. -/
theorem readDir_child_dirs_characterization
    (env : Env) (s : SivaState) (d k : String) (t : Nat)
    (hopen : s.rwOpen = true) (hidx : env.indexOK = true)
    (hc : isCleanPath d = true) (hm : noMetaStr d = true)
    (hnames : ∀ e ∈ s.log, isCleanPath e.name = true) :
    (∃ L, sivaFS.ReadDir env s d = (s, .ok L)) ∧
    (∀ L, sivaFS.ReadDir env s d = (s, .ok L) →
      (FInfo.dir k t ∈ L ↔
        ((∃ e ∈ filterIndex s.log, nestedTwo d k e.name ∧ e.modTime = t) ∧
         (∀ e ∈ filterIndex s.log, nestedTwo d k e.name → e.modTime ≤ t)))) := by
  have hnorm := normalizePath_clean hc
  have heval := readDir_eval hopen hidx d
  rw [hnorm] at heval
  have hnamesF : ∀ e ∈ filterIndex s.log, isCleanPath e.name = true :=
    fun e he => hnames e (filterIndex_subset he)
  refine ⟨⟨_, heval⟩, ?_⟩
  intro L hL
  rw [heval] at hL
  injection hL with h1 h2
  injection h2 with h3
  subst h3
  rw [List.mem_append]
  constructor
  · rintro (hmem | hmem)
    · exact (listDirs_mem_iff _ d k t hc hm hnamesF).1 hmem
    · exfalso
      unfold listFiles at hmem
      obtain ⟨e, _, heq⟩ := List.mem_map.1 hmem
      cases heq
  · intro hr
    exact Or.inl ((listDirs_mem_iff _ d k t hc hm hnamesF).2 hr)

/-- Witness for the amended C7: after creating a/b/c at time five,
reading directory a yields exactly the synthetic directory a/b with
modTime five. -/
theorem readDir_child_dirs_characterization_witness :
    sivaFS.ReadDir envOK ⟨true, false, [⟨"a/b/c", 438, 5, false⟩]⟩ "a" =
      (⟨true, false, [⟨"a/b/c", 438, 5, false⟩]⟩, .ok [FInfo.dir "a/b" 5]) ∧
    FInfo.dir "a/b" 5 ∈ [FInfo.dir "a/b" 5] := by
  constructor
  · rfl
  · refine ((readDir_child_dirs_characterization envOK
      ⟨true, false, [⟨"a/b/c", 438, 5, false⟩]⟩ "a" "a/b" 5 rfl rfl
      (by decide) (by decide) ?_).2 [FInfo.dir "a/b" 5] (by rfl)).mpr ?_
    · intro e he
      rcases List.mem_singleton.1 he with rfl
      decide
    · refine ⟨⟨⟨"a/b/c", 438, 5, false⟩, by decide,
        ⟨"b", "c", by decide, by decide, by decide, by decide⟩, rfl⟩, ?_⟩
      intro e he hnt
      rcases List.mem_singleton.1 he with rfl
      exact Nat.le_refl _
